import Mathlib

/-!
Verification of the FrameSplitter pipeline (`src/frame_splitter.py`).

The source is shallowly embedded: Python strings (ledger content, file
names, hashes) are `List Char`; Python floats that the program only
compares, floors and divides (clip durations, frame rates) are `ℚ`;
`int(...)` truncation is `pyInt`; the ledger file is `Option (List Char)`
(`none` = file does not exist); a raised/caught exception becomes an
explicit failure value.  The opaque media capabilities (moviepy's
`VideoFileClip`, cv2 decode/encode, image writes) are abstracted into
boolean success inputs, per the spec's list of external collaborators.
-/

namespace FrameSplitter

/-- Python `int(q)`: truncation toward zero. -/
def pyInt (q : ℚ) : Int := if 0 ≤ q then ⌊q⌋ else -⌊-q⌋

/-- Python `str.splitlines()` restricted to the `'\n'` separator, which is
the only line terminator the program ever writes into the ledger file
(`mark_as_processed` appends `f"{video_hash}\n"`).  A trailing newline does
not produce a trailing empty line, exactly as in Python. -/
def pySplitlines : List Char → List (List Char)
  | [] => []
  | c :: cs =>
    if c = '\n' then [] :: pySplitlines cs
    else
      match pySplitlines cs with
      | [] => [[c]]
      | l :: ls => (c :: l) :: ls

/-- A source file as `get_video_hash` observes it through `os.stat` and
`os.path.basename`: the base name and the byte size are read, the content
bytes and the modification time are present but never consulted. -/
structure File where
  baseName : List Char
  size : Nat
  content : List Nat
  mtime : Nat

/-- Line 14: `hash_input = f"{base_name}-{file_size}"`. -/
def hash_input (f : File) : List Char :=
  f.baseName ++ ('-' :: (toString f.size).toList)

/-- Lines 9-15, `get_video_hash`: md5 hex digest of `hash_input`.  The md5
primitive itself is the standard library's; it is kept abstract as a
function parameter, of which nothing is assumed. -/
def get_video_hash (md5hex : List Char → List Char) (f : File) : List Char :=
  md5hex (hash_input f)

/-- Lines 17-27, `is_already_processed`: `False` when the ledger file does
not exist, membership of the video's hash among the file's lines
otherwise. -/
def is_already_processed (md5hex : List Char → List Char) (f : File)
    (store : Option (List Char)) : Bool :=
  match store with
  | none => false
  | some content => decide (get_video_hash md5hex f ∈ pySplitlines content)

/-- Lines 29-34, `mark_as_processed`: open in `a+` mode (creating the file
when missing) and append `hash ++ "\n"`. -/
def mark_as_processed (md5hex : List Char → List Char) (f : File)
    (store : Option (List Char)) : Option (List Char) :=
  some (store.getD [] ++ (get_video_hash md5hex f ++ ['\n']))

/-- The recorded line entries of a ledger store (no file = no entries). -/
def ledger_lines : Option (List Char) → List (List Char)
  | none => []
  | some content => pySplitlines content

/-- Stores reachable by the program: absent, or with every recorded entry
newline-terminated (every write appends a `'\n'`). -/
def goodStore : Option (List Char) → Prop
  | none => True
  | some content => content = [] ∨ content.getLast? = some '\n'

/-! ## Frame sampler (`extract_one_frame_per_second`, lines 36-62) -/

/-- The one error the sampler body can raise before any frame is read:
line 44 divides `frame_count / fps` without guarding `fps == 0`. -/
inductive SamplerError
  | zeroDivision
  deriving DecidableEq

/-- Lines 46-60: `count = 0; while count <= duration: ... count += 1`.
`reads k` is the success of `cap.read()` on iteration `k` (after the seek
of lines 48-49); a failed read breaks out of the loop.  The returned list
holds the integer-second offsets whose frames were written. -/
def sampleLoop (duration : ℚ) (reads : Nat → Bool) (count : Nat) : List Nat :=
  if h : (count : ℚ) ≤ duration then
    if reads count then count :: sampleLoop duration reads (count + 1) else []
  else []
termination_by ⌊duration⌋₊ + 1 - count
decreasing_by
  have hc : count ≤ ⌊duration⌋₊ := Nat.le_floor h
  omega

/-- Lines 36-62, `extract_one_frame_per_second`, for a capture reporting
frame rate `fps` and frame count `frameCount`: computing
`duration = frame_count / fps` raises `ZeroDivisionError` when `fps` is 0;
otherwise the per-second loop runs and the offsets of the written frames
are returned.  (The directory bootstrap of lines 38-39 and the image
writes are external effects with no bearing on the control flow.) -/
def extract_one_frame_per_second (fps : ℚ) (frameCount : Nat)
    (reads : Nat → Bool) : Except SamplerError (List Nat) :=
  if fps = 0 then .error .zeroDivision
  else .ok (sampleLoop ((frameCount : ℚ) / fps) reads 0)

/-- Line 48: `frame_no = int(count * fps)`, the frame index the sampler
seeks to before decoding second `count`. -/
def frame_no (count : Nat) (fps : ℚ) : Int :=
  pyInt ((count : ℚ) * fps)

/-- The frame index as the spec's words describe it: "the frame nearest
timestamp `s` (computed as `round(s * R)`)".  Stated for comparison with
`frame_no`, which is what the code computes. -/
def frame_no_spec (count : Nat) (fps : ℚ) : Int :=
  round ((count : ℚ) * fps)

/-! ## Segmenter (`split_video`, lines 64-105) -/

/-- The outcomes of the external media operations one call to `split_video`
performs: whether `VideoFileClip(video_path)` succeeds (line 72), whether
`segment.write_videofile` succeeds for loop index `i` (lines 88-92, a
failure raises), and whether the nested `extract_one_frame_per_second`
call raises for loop index `i` (line 97, e.g. the `ZeroDivisionError` of
line 44 when cv2 cannot open the just-written segment).  A read failure
inside the sampler is NOT a raise: it only breaks the sampler's own loop. -/
structure SplitEnv where
  openOk : Bool
  writeOk : Nat → Bool
  samplerRaises : Nat → Bool

/-- What one `split_video` call did: the returned boolean (line 102 /
line 105), the `[start_time, end_time)` pairs of the segments written, and
the loop indices for which the frame sampler was invoked. -/
structure SplitResult where
  success : Bool
  written : List (Nat × Nat)
  sampled : List Nat
  deriving DecidableEq

/-- Lines 76-97, the body of the `for i in range(segments + 1)` loop over
the remaining loop indices `is`.  Zero-length segments are skipped
(lines 80-81); a raised write failure or sampler failure aborts the rest
of the loop and is caught by the `except` of line 103, making the whole
call return `False` with the earlier segments left on disk. -/
def splitSegs (D L : Nat) (env : SplitEnv) : List Nat → SplitResult
  | [] => { success := true, written := [], sampled := [] }
  | i :: rest =>
    if min ((i + 1) * L) D ≤ i * L then splitSegs D L env rest
    else if env.writeOk i then
      if env.samplerRaises i then
        { success := false, written := [(i * L, min ((i + 1) * L) D)], sampled := [i] }
      else
        let r := splitSegs D L env rest
        { success := r.success
          written := (i * L, min ((i + 1) * L) D) :: r.written
          sampled := i :: r.sampled }
    else { success := false, written := [], sampled := [] }

/-- Lines 64-105, `split_video` on a source whose `clip.duration` is `d`:
`duration = int(clip.duration)` (line 73), `segments = duration //
segment_duration` (line 74), then the loop over `range(segments + 1)`.
An unopenable source (line 72 raising) is caught at line 103. -/
def split_video (d : ℚ) (L : Nat) (env : SplitEnv) : SplitResult :=
  if env.openOk then splitSegs (pyInt d).toNat L env (List.range ((pyInt d).toNat / L + 1))
  else { success := false, written := [], sampled := [] }

/-- The segments `split_video` emits on the all-success path, exactly as
the loop enumerates them: `[i*L, min((i+1)*L, D))` for `i` in
`[0, D // L]`, skipping `end <= start`. -/
def emittedSegments (D L : Nat) : List (Nat × Nat) :=
  (List.range (D / L + 1)).filterMap fun i =>
    if i * L < min ((i + 1) * L) D then some (i * L, min ((i + 1) * L) D) else none

/-- The loop indices whose segment is actually written (not skipped). -/
def emittedIndices (D L : Nat) : List Nat :=
  (List.range (D / L + 1)).filter fun i => decide (i * L < min ((i + 1) * L) D)

/-- The number of emitted segments: `⌈D / L⌉`. -/
def numSegs (D L : Nat) : Nat := (D + L - 1) / L

/-- An environment in which every media operation succeeds and no sampler
call raises. -/
def allOkEnv : SplitEnv :=
  { openOk := true, writeOk := fun _ => true, samplerRaises := fun _ => false }

/-! ## Batch driver (`process_videos`, lines 107-139) -/

/-- One candidate video as the driver's loop sees it: the file (for the
ledger), its `clip.duration`, and the outcomes of its media operations.
Directory scanning and extension filtering (lines 111-128) are the
external discovery step that produces this list. -/
structure Video where
  file : File
  dur : ℚ
  env : SplitEnv

/-- Lines 130-139, the per-video loop: skip when the ledger already holds
the video's hash, otherwise run `split_video` and mark the video only when
it returned `True`.  Returns the final ledger store and the videos that
were actually handed to `split_video` (in order). -/
def process_videos (md5hex : List Char → List Char) (L : Nat) :
    List Video → Option (List Char) → Option (List Char) × List Video
  | [], store => (store, [])
  | v :: vs, store =>
    if is_already_processed md5hex v.file store then
      process_videos md5hex L vs store
    else
      let r := split_video v.dur L v.env
      let store' := if r.success then mark_as_processed md5hex v.file store else store
      let rest := process_videos md5hex L vs store'
      (rest.1, v :: rest.2)

/-! ## Lemmas: the ledger store -/

theorem pySplitlines_ne_nil {l : List Char} (h : l ≠ []) : pySplitlines l ≠ [] := by
  match l with
  | c :: cs =>
    rw [pySplitlines]
    by_cases hc : c = '\n'
    · simp [hc]
    · rw [if_neg hc]
      cases pySplitlines cs <;> simp

theorem pySplitlines_singleton_line {h : List Char} (hn : '\n' ∉ h) :
    pySplitlines (h ++ ['\n']) = [h] := by
  induction h with
  | nil => rfl
  | cons c cs ih =>
    have hc : c ≠ '\n' := fun hc => hn (hc ▸ List.mem_cons_self c cs)
    have ihn : '\n' ∉ cs := fun hm => hn (List.mem_cons_of_mem c hm)
    rw [List.cons_append, pySplitlines, if_neg hc, ih ihn]

theorem pySplitlines_append {c : List Char} (t : List Char)
    (hc : c = [] ∨ c.getLast? = some '\n') :
    pySplitlines (c ++ t) = pySplitlines c ++ pySplitlines t := by
  induction c with
  | nil => simp [pySplitlines]
  | cons x xs ih =>
    rcases hc with hc | hc
    · exact absurd hc (List.cons_ne_nil x xs)
    match xs, ih with
    | [], _ =>
      have hx : x = '\n' := by simpa [List.getLast?] using hc
      subst hx
      rw [List.cons_append, pySplitlines, if_pos rfl]
      rfl
    | y :: ys, ih =>
      have hlast : (y :: ys).getLast? = some '\n' := by
        rwa [List.getLast?_cons_cons] at hc
      have ih' := ih (Or.inr hlast)
      by_cases hx : x = '\n'
      · subst hx
        rw [List.cons_append, pySplitlines, if_pos rfl, ih']
        conv_rhs => rw [pySplitlines, if_pos rfl]
        simp
      · rw [List.cons_append, pySplitlines, if_neg hx, ih']
        conv_rhs => rw [pySplitlines, if_neg hx]
        have hne : pySplitlines (y :: ys) ≠ [] :=
          pySplitlines_ne_nil (List.cons_ne_nil y ys)
        cases hps : pySplitlines (y :: ys) with
        | nil => exact absurd hps hne
        | cons l ls => simp

theorem goodStore_mark (md5hex : List Char → List Char) (f : File)
    (s : Option (List Char)) : goodStore (mark_as_processed md5hex f s) := by
  unfold mark_as_processed goodStore
  refine Or.inr ?_
  rw [← List.append_assoc]
  exact List.getLast?_concat _

theorem ledger_lines_mark {md5hex : List Char → List Char} {f : File}
    {s : Option (List Char)} (hg : goodStore s)
    (hn : '\n' ∉ get_video_hash md5hex f) :
    ledger_lines (mark_as_processed md5hex f s) =
      ledger_lines s ++ [get_video_hash md5hex f] := by
  unfold mark_as_processed ledger_lines
  cases s with
  | none =>
    simp only [Option.getD_none]
    rw [List.nil_append, pySplitlines_singleton_line hn]
    rfl
  | some c =>
    simp only [Option.getD_some]
    rw [pySplitlines_append _ hg, pySplitlines_singleton_line hn]

theorem is_already_eq (md5hex : List Char → List Char) (f : File)
    (s : Option (List Char)) :
    is_already_processed md5hex f s =
      decide (get_video_hash md5hex f ∈ ledger_lines s) := by
  cases s <;> simp [is_already_processed, ledger_lines]

/-! ## Lemmas: the frame sampler -/

theorem takeWhile_length_le {α : Type} (p : α → Bool) (l : List α) :
    (l.takeWhile p).length ≤ l.length := by
  induction l with
  | nil => simp
  | cons a l ih =>
    rw [List.takeWhile_cons]
    cases p a
    · simp
    · rw [if_pos rfl, List.length_cons, List.length_cons]
      omega

theorem sampleLoop_eq {D : ℚ} (hD : 0 ≤ D) (reads : Nat → Bool) :
    ∀ (k n : Nat), ⌊D⌋₊ + 1 - n = k →
      sampleLoop D reads n = (List.range' n k).takeWhile reads := by
  intro k
  induction k with
  | zero =>
    intro n hn
    have hgt : ¬ ((n : ℚ) ≤ D) := by
      intro hle
      have := Nat.le_floor hle
      omega
    rw [sampleLoop, dif_neg hgt]
    rfl
  | succ k ih =>
    intro n hn
    have hle : n ≤ ⌊D⌋₊ := by omega
    have hq : (n : ℚ) ≤ D :=
      le_trans (by exact_mod_cast Nat.cast_le.mpr hle) (Nat.floor_le hD)
    rw [sampleLoop, dif_pos hq, List.range'_succ, List.takeWhile_cons]
    cases hr : reads n
    · simp
    · simp only [if_pos rfl]
      rw [ih (n + 1) (by omega)]

/-! ## Lemmas: the segmenter -/

theorem splitSegs_allOk {env : SplitEnv} (D L : Nat)
    (hw : ∀ i, env.writeOk i = true) (hs : ∀ i, env.samplerRaises i = false) :
    ∀ is : List Nat,
      splitSegs D L env is =
        { success := true
          written := is.filterMap fun i =>
            if i * L < min ((i + 1) * L) D then some (i * L, min ((i + 1) * L) D) else none
          sampled := is.filter fun i => decide (i * L < min ((i + 1) * L) D) } := by
  have hfalse : ¬ (false = true) := by simp
  intro is
  induction is with
  | nil => rfl
  | cons i rest ih =>
    rw [splitSegs]
    by_cases hskip : min ((i + 1) * L) D ≤ i * L
    · have hlt : ¬ i * L < min ((i + 1) * L) D := not_lt.mpr hskip
      rw [if_pos hskip, ih, List.filterMap_cons, if_neg hlt, List.filter_cons,
        if_neg (by simpa using hlt)]
    · have hlt : i * L < min ((i + 1) * L) D := not_le.mp hskip
      rw [if_neg hskip, hw i, if_pos rfl, hs i, if_neg hfalse, ih,
        List.filterMap_cons, if_pos hlt, List.filter_cons, if_pos (by simpa using hlt)]

theorem splitSegs_success_iff (env : SplitEnv) (D L : Nat) :
    ∀ is : List Nat,
      (splitSegs D L env is).success = true ↔
        ∀ i ∈ is.filter (fun i => decide (i * L < min ((i + 1) * L) D)),
          env.writeOk i = true ∧ env.samplerRaises i = false := by
  have hfalse : ¬ (false = true) := by simp
  intro is
  induction is with
  | nil => simp [splitSegs]
  | cons i rest ih =>
    rw [splitSegs]
    by_cases hskip : min ((i + 1) * L) D ≤ i * L
    · have hlt : ¬ i * L < min ((i + 1) * L) D := not_lt.mpr hskip
      rw [if_pos hskip, ih, List.filter_cons, if_neg (by simpa using hlt)]
    · have hlt : i * L < min ((i + 1) * L) D := not_le.mp hskip
      have hdec : decide (i * L < min ((i + 1) * L) D) = true := by simpa using hlt
      rw [if_neg hskip, List.filter_cons, if_pos hdec]
      cases hwr : env.writeOk i
      · rw [if_neg hfalse]
        refine iff_of_false (by simp) fun hall => ?_
        have h1 := (hall i (List.mem_cons_self i _)).1
        rw [hwr] at h1
        exact hfalse h1
      · rw [if_pos rfl]
        cases hsr : env.samplerRaises i
        · rw [if_neg hfalse]
          show (splitSegs D L env rest).success = true ↔ _
          rw [ih, List.forall_mem_cons]
          exact ⟨fun h => ⟨⟨hwr, hsr⟩, h⟩, fun h => h.2⟩
        · rw [if_pos rfl]
          refine iff_of_false (by simp) fun hall => ?_
          have h2 := (hall i (List.mem_cons_self i _)).2
          rw [hsr] at h2
          exact hfalse h2.symm

theorem lt_numSegs_iff {L : Nat} (hL : 0 < L) (D i : Nat) :
    i < numSegs D L ↔ i * L < D := by
  unfold numSegs
  rw [Nat.lt_iff_add_one_le, Nat.le_div_iff_mul_le hL, Nat.add_mul, Nat.one_mul]
  omega

theorem numSegs_le {L : Nat} (hL : 0 < L) (D : Nat) : numSegs D L ≤ D / L + 1 := by
  by_contra hgt
  push_neg at hgt
  have h2 : (D / L + 1) * L < D := (lt_numSegs_iff hL D (D / L + 1)).mp hgt
  have hdm := Nat.div_add_mod D L
  have hml : D % L < L := Nat.mod_lt D hL
  rw [Nat.add_mul, Nat.one_mul, Nat.mul_comm] at h2
  omega

theorem filterMap_if_all {α : Type} (p : Nat → Prop) [DecidablePred p]
    (f : Nat → α) (l : List Nat) (h : ∀ i ∈ l, p i) :
    (l.filterMap fun i => if p i then some (f i) else none) = l.map f := by
  induction l with
  | nil => rfl
  | cons i rest ih =>
    rw [List.filterMap_cons, if_pos (h i (List.mem_cons_self i rest)), List.map_cons,
      ih fun j hj => h j (List.mem_cons_of_mem i hj)]

theorem filterMap_if_none {α : Type} (p : Nat → Prop) [DecidablePred p]
    (f : Nat → α) (l : List Nat) (h : ∀ i ∈ l, ¬ p i) :
    (l.filterMap fun i => if p i then some (f i) else none) = [] := by
  induction l with
  | nil => rfl
  | cons i rest ih =>
    rw [List.filterMap_cons, if_neg (h i (List.mem_cons_self i rest)),
      ih fun j hj => h j (List.mem_cons_of_mem i hj)]

theorem emittedSegments_eq_map {L : Nat} (hL : 0 < L) (D : Nat) :
    emittedSegments D L =
      (List.range (numSegs D L)).map fun i => (i * L, min ((i + 1) * L) D) := by
  unfold emittedSegments
  have hcond : ∀ i : Nat, (i * L < min ((i + 1) * L) D) ↔ i * L < D := by
    intro i
    rw [lt_min_iff]
    constructor
    · exact fun h => h.2
    · refine fun h => ⟨?_, h⟩
      exact (Nat.mul_lt_mul_right hL).mpr (Nat.lt_succ_self i)
  have hsplit : D / L + 1 = numSegs D L + (D / L + 1 - numSegs D L) := by
    have := numSegs_le hL D
    omega
  rw [hsplit, List.range_add, List.filterMap_append]
  have h1 : (List.range (numSegs D L)).filterMap
      (fun i => if i * L < min ((i + 1) * L) D then some (i * L, min ((i + 1) * L) D) else none) =
      (List.range (numSegs D L)).map fun i => (i * L, min ((i + 1) * L) D) := by
    refine filterMap_if_all _ _ _ fun i hi => ?_
    rw [hcond]
    exact (lt_numSegs_iff hL D i).mp (List.mem_range.mp hi)
  have h2 : (((List.range (D / L + 1 - numSegs D L)).map (numSegs D L + ·)).filterMap
      fun i => if i * L < min ((i + 1) * L) D then some (i * L, min ((i + 1) * L) D) else none) =
      [] := by
    refine filterMap_if_none _ _ _ fun i hi => ?_
    rw [hcond]
    rcases List.mem_map.mp hi with ⟨j, _, rfl⟩
    intro hlt
    have := (lt_numSegs_iff hL D (numSegs D L + j)).mpr hlt
    omega
  rw [h1, h2, List.append_nil]

/-! ## Lemmas: the batch driver -/

theorem process_videos_cons (md5hex : List Char → List Char) (L : Nat)
    (v : Video) (vs : List Video) (s : Option (List Char)) :
    process_videos md5hex L (v :: vs) s =
      if is_already_processed md5hex v.file s then process_videos md5hex L vs s
      else
        ((process_videos md5hex L vs
            (if (split_video v.dur L v.env).success then mark_as_processed md5hex v.file s
             else s)).1,
         v :: (process_videos md5hex L vs
            (if (split_video v.dur L v.env).success then mark_as_processed md5hex v.file s
             else s)).2) := rfl

theorem goodStore_update (md5hex : List Char → List Char) (f : File)
    (b : Bool) {s : Option (List Char)} (hs : goodStore s) :
    goodStore (if b then mark_as_processed md5hex f s else s) := by
  cases b
  · simpa using hs
  · simpa using goodStore_mark md5hex f s

theorem mem_lines_update (md5hex : List Char → List Char) (f : File)
    (b : Bool) {s : Option (List Char)} (hs : goodStore s)
    (hn : '\n' ∉ get_video_hash md5hex f) {x : List Char}
    (hx : x ∈ ledger_lines s) :
    x ∈ ledger_lines (if b then mark_as_processed md5hex f s else s) := by
  cases b
  · simpa using hx
  · rw [if_pos rfl, ledger_lines_mark hs hn]
    exact List.mem_append_left _ hx

theorem goodStore_process (md5hex : List Char → List Char) (L : Nat) :
    ∀ (vs : List Video) (s : Option (List Char)), goodStore s →
      goodStore (process_videos md5hex L vs s).1 := by
  intro vs
  induction vs with
  | nil => exact fun s hs => hs
  | cons v rest ih =>
    intro s hs
    rw [process_videos_cons]
    by_cases hp : is_already_processed md5hex v.file s = true
    · rw [if_pos hp]
      exact ih s hs
    · rw [if_neg hp]
      exact ih _ (goodStore_update md5hex v.file _ hs)

theorem lines_mono (md5hex : List Char → List Char) (L : Nat) :
    ∀ (vs : List Video) (s : Option (List Char)), goodStore s →
      (∀ v ∈ vs, '\n' ∉ get_video_hash md5hex v.file) →
      ∀ x ∈ ledger_lines s, x ∈ ledger_lines (process_videos md5hex L vs s).1 := by
  intro vs
  induction vs with
  | nil => exact fun s _ _ x hx => hx
  | cons v rest ih =>
    intro s hs hnl x hx
    rw [process_videos_cons]
    by_cases hp : is_already_processed md5hex v.file s = true
    · rw [if_pos hp]
      exact ih s hs (fun u hu => hnl u (List.mem_cons_of_mem v hu)) x hx
    · rw [if_neg hp]
      refine ih _ (goodStore_update md5hex v.file _ hs)
        (fun u hu => hnl u (List.mem_cons_of_mem v hu)) x ?_
      exact mem_lines_update md5hex v.file _ hs (hnl v (List.mem_cons_self v rest)) hx

theorem marked_skipped (md5hex : List Char → List Char) (L : Nat) :
    ∀ (vs : List Video) (s : Option (List Char)), goodStore s →
      (∀ v ∈ vs, '\n' ∉ get_video_hash md5hex v.file) →
      ∀ w : Video, get_video_hash md5hex w.file ∈ ledger_lines s →
        w ∉ (process_videos md5hex L vs s).2 := by
  intro vs
  induction vs with
  | nil => simp [process_videos]
  | cons v rest ih =>
    intro s hs hnl w hw
    rw [process_videos_cons]
    by_cases hp : is_already_processed md5hex v.file s = true
    · rw [if_pos hp]
      exact ih s hs (fun u hu => hnl u (List.mem_cons_of_mem v hu)) w hw
    · rw [if_neg hp]
      intro hmem
      rcases List.mem_cons.mp hmem with rfl | hmem
      · rw [is_already_eq] at hp
        exact hp (decide_eq_true hw)
      · refine ih _ (goodStore_update md5hex v.file _ hs)
          (fun u hu => hnl u (List.mem_cons_of_mem v hu)) w ?_ hmem
        exact mem_lines_update md5hex v.file _ hs (hnl v (List.mem_cons_self v rest)) hw

theorem all_skip (md5hex : List Char → List Char) (L : Nat) :
    ∀ (vs : List Video) (s : Option (List Char)),
      (∀ v ∈ vs, is_already_processed md5hex v.file s = true) →
      process_videos md5hex L vs s = (s, []) := by
  intro vs
  induction vs with
  | nil => exact fun s _ => rfl
  | cons v rest ih =>
    intro s hall
    rw [process_videos_cons, if_pos (hall v (List.mem_cons_self v rest))]
    exact ih s fun u hu => hall u (List.mem_cons_of_mem v hu)

theorem all_success_marked (md5hex : List Char → List Char) (L : Nat) :
    ∀ (vs : List Video) (s : Option (List Char)), goodStore s →
      (∀ v ∈ vs, '\n' ∉ get_video_hash md5hex v.file) →
      (∀ v ∈ vs, (split_video v.dur L v.env).success = true) →
      ∀ v ∈ vs, get_video_hash md5hex v.file ∈
        ledger_lines (process_videos md5hex L vs s).1 := by
  intro vs
  induction vs with
  | nil => simp
  | cons v rest ih =>
    intro s hs hnl hsucc w hw
    have hnl' : ∀ u ∈ rest, '\n' ∉ get_video_hash md5hex u.file :=
      fun u hu => hnl u (List.mem_cons_of_mem v hu)
    have hsucc' : ∀ u ∈ rest, (split_video u.dur L u.env).success = true :=
      fun u hu => hsucc u (List.mem_cons_of_mem v hu)
    rw [process_videos_cons]
    by_cases hp : is_already_processed md5hex v.file s = true
    · rw [if_pos hp]
      rcases List.mem_cons.mp hw with rfl | hw
      · rw [is_already_eq] at hp
        exact lines_mono md5hex L rest s hs hnl' _ (of_decide_eq_true hp)
      · exact ih s hs hnl' hsucc' w hw
    · rw [if_neg hp]
      have hgood' := goodStore_update md5hex v.file
        (split_video v.dur L v.env).success hs
      rcases List.mem_cons.mp hw with rfl | hw
      · refine lines_mono md5hex L rest _ hgood' hnl' _ ?_
        rw [hsucc w (List.mem_cons_self w rest), if_pos rfl,
          ledger_lines_mark hs (hnl w (List.mem_cons_self w rest))]
        exact List.mem_append_right _ (List.mem_singleton_self _)
      · exact ih _ hgood' hnl' hsucc' w hw

theorem lines_new (md5hex : List Char → List Char) (L : Nat) :
    ∀ (vs : List Video) (s : Option (List Char)), goodStore s →
      (∀ v ∈ vs, '\n' ∉ get_video_hash md5hex v.file) →
      ∀ x ∈ ledger_lines (process_videos md5hex L vs s).1,
        x ∈ ledger_lines s ∨ ∃ v ∈ vs, x = get_video_hash md5hex v.file := by
  intro vs
  induction vs with
  | nil => exact fun s _ _ x hx => Or.inl hx
  | cons v rest ih =>
    intro s hs hnl x hx
    have hnl' : ∀ u ∈ rest, '\n' ∉ get_video_hash md5hex u.file :=
      fun u hu => hnl u (List.mem_cons_of_mem v hu)
    rw [process_videos_cons] at hx
    by_cases hp : is_already_processed md5hex v.file s = true
    · rw [if_pos hp] at hx
      rcases ih s hs hnl' x hx with h | ⟨u, hu, hxu⟩
      · exact Or.inl h
      · exact Or.inr ⟨u, List.mem_cons_of_mem v hu, hxu⟩
    · rw [if_neg hp] at hx
      have hgood' := goodStore_update md5hex v.file
        (split_video v.dur L v.env).success hs
      rcases ih _ hgood' hnl' x hx with h | ⟨u, hu, hxu⟩
      · cases hb : (split_video v.dur L v.env).success
        · rw [hb] at h
          simp only [Bool.false_eq_true, if_neg] at h
          exact Or.inl h
        · rw [hb, if_pos rfl,
            ledger_lines_mark hs (hnl v (List.mem_cons_self v rest))] at h
          rcases List.mem_append.mp h with h | h
          · exact Or.inl h
          · exact Or.inr ⟨v, List.mem_cons_self v rest, List.mem_singleton.mp h⟩
      · exact Or.inr ⟨u, List.mem_cons_of_mem v hu, hxu⟩

theorem process_isolated (md5hex : List Char → List Char) (L : Nat) :
    ∀ (vs : List Video) (s : Option (List Char)), goodStore s →
      (∀ v ∈ vs, '\n' ∉ get_video_hash md5hex v.file) →
      List.Pairwise
        (fun u w => get_video_hash md5hex u.file ≠ get_video_hash md5hex w.file) vs →
      (∀ v ∈ vs, get_video_hash md5hex v.file ∉ ledger_lines s) →
      (process_videos md5hex L vs s).2 = vs ∧
      ∀ v ∈ vs,
        (get_video_hash md5hex v.file ∈ ledger_lines (process_videos md5hex L vs s).1 ↔
          (split_video v.dur L v.env).success = true) := by
  intro vs
  induction vs with
  | nil => exact fun s _ _ _ _ => ⟨rfl, by simp⟩
  | cons v rest ih =>
    intro s hs hnl hpw hfresh
    have hnlv : '\n' ∉ get_video_hash md5hex v.file := hnl v (List.mem_cons_self v rest)
    have hnl' : ∀ u ∈ rest, '\n' ∉ get_video_hash md5hex u.file :=
      fun u hu => hnl u (List.mem_cons_of_mem v hu)
    have hne : ∀ u ∈ rest, get_video_hash md5hex v.file ≠ get_video_hash md5hex u.file :=
      (List.pairwise_cons.mp hpw).1
    have hpw' := (List.pairwise_cons.mp hpw).2
    have hp : ¬ is_already_processed md5hex v.file s = true := by
      rw [is_already_eq]
      simpa using hfresh v (List.mem_cons_self v rest)
    rw [process_videos_cons, if_neg hp]
    have hgood' := goodStore_update md5hex v.file (split_video v.dur L v.env).success hs
    have hfresh' : ∀ u ∈ rest, get_video_hash md5hex u.file ∉
        ledger_lines (if (split_video v.dur L v.env).success then
          mark_as_processed md5hex v.file s else s) := by
      intro u hu
      cases hb : (split_video v.dur L v.env).success
      · rw [if_neg (by simp)]
        exact hfresh u (List.mem_cons_of_mem v hu)
      · rw [if_pos rfl, ledger_lines_mark hs hnlv]
        intro hmem
        rcases List.mem_append.mp hmem with h | h
        · exact hfresh u (List.mem_cons_of_mem v hu) h
        · exact hne u hu (List.mem_singleton.mp h).symm
    rcases ih _ hgood' hnl' hpw' hfresh' with ⟨hwork, hmarks⟩
    refine ⟨by rw [hwork], ?_⟩
    intro w hw
    rcases List.mem_cons.mp hw with rfl | hw
    · constructor
      · intro hmem
        rcases lines_new md5hex L rest _ hgood' hnl' _ hmem with h | ⟨u, hu, hxu⟩
        · cases hb : (split_video w.dur L w.env).success
          · rw [hb] at h
            rw [if_neg (by simp)] at h
            exact absurd h (hfresh w (List.mem_cons_self w rest))
          · rfl
        · exact absurd hxu (hne u hu)
      · intro hb
        refine lines_mono md5hex L rest _ hgood' hnl' _ ?_
        rw [hb, if_pos rfl, ledger_lines_mark hs hnlv]
        exact List.mem_append_right _ (List.mem_singleton_self _)
    · exact hmarks w hw

/-! ## Lemmas: pyInt and the geometry of the emitted segments -/

theorem pyInt_eq_floor {q : ℚ} (h : 0 ≤ q) : pyInt q = ⌊q⌋ := if_pos h

theorem pyInt_toNat_floor {q : ℚ} (h : 0 ≤ q) : (pyInt q).toNat = ⌊q⌋₊ := by
  rw [pyInt_eq_floor h, Int.floor_toNat]

theorem segs_chain {L : Nat} (hL : 0 < L) (D : Nat) :
    List.Chain' (fun p q : Nat × Nat => p.2 = q.1) (emittedSegments D L) := by
  rw [emittedSegments_eq_map hL, List.chain'_map]
  rcases hn : numSegs D L with _ | n
  · simp
  · rw [List.chain'_range_succ]
    intro m hm
    have hlt : (m + 1) * L < D := by
      refine (lt_numSegs_iff hL D (m + 1)).mp ?_
      omega
    exact min_eq_left (le_of_lt hlt)

theorem segs_pairwise {L : Nat} (hL : 0 < L) (D : Nat) :
    List.Pairwise (fun p q : Nat × Nat => p.2 ≤ q.1) (emittedSegments D L) := by
  rw [emittedSegments_eq_map hL, List.pairwise_map]
  refine (List.pairwise_lt_range _).imp ?_
  intro a b hab
  exact le_trans (min_le_left _ _) (Nat.mul_le_mul_right L hab)

theorem segs_cover {L : Nat} (hL : 0 < L) (D : Nat) (t : Nat) :
    t < D ↔ ∃ p ∈ emittedSegments D L, p.1 ≤ t ∧ t < p.2 := by
  rw [emittedSegments_eq_map hL]
  constructor
  · intro ht
    have hstart : t / L * L ≤ t := Nat.div_mul_le_self t L
    have hmem : t / L < numSegs D L :=
      (lt_numSegs_iff hL D (t / L)).mpr (lt_of_le_of_lt hstart ht)
    refine ⟨(t / L * L, min ((t / L + 1) * L) D),
      List.mem_map.mpr ⟨t / L, List.mem_range.mpr hmem, rfl⟩, hstart, ?_⟩
    have h1 : t / L * L + t % L = t := by
      rw [Nat.mul_comm]
      exact Nat.div_add_mod t L
    have h2 : t % L < L := Nat.mod_lt t hL
    refine lt_min_iff.mpr ⟨?_, ht⟩
    rw [Nat.add_mul, Nat.one_mul]
    omega
  · rintro ⟨p, hp, _, hlt⟩
    rcases List.mem_map.mp hp with ⟨i, _, rfl⟩
    exact lt_of_lt_of_le hlt (min_le_right _ _)

theorem segs_len {L : Nat} (hL : 0 < L) (D : Nat) :
    ∀ p ∈ emittedSegments D L, p.1 < p.2 ∧ p.2 - p.1 ≤ L := by
  rw [emittedSegments_eq_map hL]
  intro p hp
  rcases List.mem_map.mp hp with ⟨i, hi, rfl⟩
  have hiD : i * L < D := (lt_numSegs_iff hL D i).mp (List.mem_range.mp hi)
  constructor
  · refine lt_min_iff.mpr ⟨?_, hiD⟩
    exact (Nat.mul_lt_mul_right hL).mpr (Nat.lt_succ_self i)
  · show min ((i + 1) * L) D - i * L ≤ L
    rw [Nat.add_mul, Nat.one_mul]
    omega

theorem segs_dropLast_full {L : Nat} (hL : 0 < L) (D : Nat) :
    ∀ p ∈ (emittedSegments D L).dropLast, p.2 - p.1 = L := by
  rw [emittedSegments_eq_map hL]
  have hdrop :
      ((List.range (numSegs D L)).map fun i => (i * L, min ((i + 1) * L) D)).dropLast =
        (List.range (numSegs D L - 1)).map fun i => (i * L, min ((i + 1) * L) D) := by
    rcases hn : numSegs D L with _ | n
    · rfl
    · rw [List.range_succ, List.map_append]
      exact List.dropLast_concat
  rw [hdrop]
  intro p hp
  rcases List.mem_map.mp hp with ⟨i, hi, rfl⟩
  have hi1 : i + 1 < numSegs D L := by
    have := List.mem_range.mp hi
    omega
  have hlt : (i + 1) * L < D := (lt_numSegs_iff hL D (i + 1)).mp hi1
  rw [min_eq_left (le_of_lt hlt), Nat.add_mul, Nat.one_mul]
  omega

theorem segs_count_exact {L : Nat} (hL : 0 < L) (D : Nat) (hmod : D % L = 0) :
    (emittedSegments D L).length = D / L := by
  rw [emittedSegments_eq_map hL, List.length_map, List.length_range]
  have hdc : D / L * L = D := Nat.div_mul_cancel (Nat.dvd_of_mod_eq_zero hmod)
  have h3 : ∀ i : Nat, i * L < D ↔ i < D / L := by
    intro i
    conv_lhs => rw [← hdc]
    exact Nat.mul_lt_mul_right hL
  have h1 := (lt_numSegs_iff hL D (numSegs D L)).trans (h3 _)
  have h2 := (lt_numSegs_iff hL D (D / L)).trans (h3 _)
  omega

/-! ## The claims -/

/-- C6: the fingerprint is a pure, deterministic function of the source
file's base name and byte size only: whatever the md5 primitive is, two
files agreeing on base name and size receive the same identity, however
their content bytes and modification times differ. -/
theorem C6_fingerprint_name_size_only (md5hex : List Char → List Char)
    (f g : File) (hname : f.baseName = g.baseName) (hsize : f.size = g.size) :
    get_video_hash md5hex f = get_video_hash md5hex g := by
  unfold get_video_hash hash_input
  rw [hname, hsize]

/-- Witness for C6: two files with the same name and size but different
content bytes and modification times fingerprint identically. -/
theorem C6_fingerprint_name_size_only_witness :
    (File.mk "v.mp4".toList 5 [1, 2, 3, 4, 5] 100).baseName =
        (File.mk "v.mp4".toList 5 [9, 9, 9, 9, 9] 200).baseName ∧
    (File.mk "v.mp4".toList 5 [1, 2, 3, 4, 5] 100).size =
        (File.mk "v.mp4".toList 5 [9, 9, 9, 9, 9] 200).size ∧
    (File.mk "v.mp4".toList 5 [1, 2, 3, 4, 5] 100).content ≠
        (File.mk "v.mp4".toList 5 [9, 9, 9, 9, 9] 200).content ∧
    (File.mk "v.mp4".toList 5 [1, 2, 3, 4, 5] 100).mtime ≠
        (File.mk "v.mp4".toList 5 [9, 9, 9, 9, 9] 200).mtime ∧
    get_video_hash id (File.mk "v.mp4".toList 5 [1, 2, 3, 4, 5] 100) =
        get_video_hash id (File.mk "v.mp4".toList 5 [9, 9, 9, 9, 9] 200) :=
  ⟨rfl, rfl, by decide, by decide,
    C6_fingerprint_name_size_only id _ _ rfl rfl⟩

/-- C8: `is_already_processed` returns false for every identity when the
ledger store file does not exist; when it exists, it returns true exactly
when the identity is one of the recorded line entries. -/
theorem C8_ledger_membership (md5hex : List Char → List Char) (f : File) :
    is_already_processed md5hex f none = false ∧
    ∀ content : List Char,
      (is_already_processed md5hex f (some content) = true ↔
        get_video_hash md5hex f ∈ pySplitlines content) :=
  ⟨rfl, fun content => by simp [is_already_processed]⟩

/-- C4 counterexample: at second s = 1 with frame rate R = 29.97, the code
(line 48, `int(count * fps)`) seeks to frame 29, while the claimed
`round(s * R)` — the index nearest the timestamp — is frame 30. -/
theorem C4_counterexample :
    frame_no 1 (2997 / 100) = 29 ∧ frame_no_spec 1 (2997 / 100) = 30 ∧
    frame_no 1 (2997 / 100) ≠ frame_no_spec 1 (2997 / 100) := by
  have h1 : frame_no 1 (2997 / 100) = 29 := by
    unfold frame_no pyInt
    rw [if_pos (by norm_num)]
    norm_num
  have h2 : frame_no_spec 1 (2997 / 100) = 30 := by
    unfold frame_no_spec
    rw [round_eq]
    norm_num
  refine ⟨h1, h2, ?_⟩
  rw [h1, h2]
  decide

/-- C4 amended: before decoding second s the sampler seeks to frame index
`int(s * R)` — truncation toward zero, which on the nonnegative product
equals the floor `⌊s * R⌋` — not to `round(s * R)`; for fractional frame
rates this can be one less than the frame nearest the timestamp. -/
theorem C4_seek_floor (s : Nat) (R : ℚ) (hR : 0 ≤ R) :
    frame_no s R = ⌊(s : ℚ) * R⌋ := by
  unfold frame_no pyInt
  rw [if_pos (mul_nonneg (by positivity) hR)]

/-- Witness for C4 amended: at s = 1, R = 29.97 the seek index is the
floor, 29. -/
theorem C4_seek_floor_witness :
    (0 : ℚ) ≤ 2997 / 100 ∧ frame_no 1 (2997 / 100) = ⌊(1 : ℚ) * (2997 / 100)⌋ ∧
    (⌊(1 : ℚ) * (2997 / 100)⌋ : Int) = 29 :=
  ⟨by norm_num, C4_seek_floor 1 (2997 / 100) (by norm_num), by norm_num⟩

/-- C10: the duration computation `frame_count / fps` of line 44 is an
unguarded division: a capture reporting frame rate 0 (as cv2 does for an
unreadable path) makes the sampler raise `ZeroDivisionError` instead of
reaching the graceful stop-sampling path, while any positive frame rate
completes without raising. -/
theorem C10_unguarded_division :
    (∀ (frameCount : Nat) (reads : Nat → Bool),
      extract_one_frame_per_second 0 frameCount reads =
        .error SamplerError.zeroDivision) ∧
    (∀ (fps : ℚ) (frameCount : Nat) (reads : Nat → Bool), 0 < fps →
      ∃ offsets, extract_one_frame_per_second fps frameCount reads = .ok offsets) := by
  constructor
  · intro frameCount reads
    rw [extract_one_frame_per_second, if_pos rfl]
  · intro fps frameCount reads hpos
    exact ⟨_, by rw [extract_one_frame_per_second, if_neg (ne_of_gt hpos)]⟩

/-- Witness for C10: fps = 0 raises; fps = 25 returns normally. -/
theorem C10_unguarded_division_witness :
    extract_one_frame_per_second 0 100 (fun _ => true) =
      .error SamplerError.zeroDivision ∧
    (0 : ℚ) < 25 ∧
    ∃ offsets, extract_one_frame_per_second 25 100 (fun _ => true) = .ok offsets :=
  ⟨C10_unguarded_division.1 100 _, by norm_num,
    C10_unguarded_division.2 25 100 _ (by norm_num)⟩

/-- C3: for a segment with positive frame rate, the sampler attempts
integer offsets s = 0, 1, 2, ... exactly while s ≤ duration =
frame_count / fps, stopping (normally, without error) at the first offset
whose read fails: the written offsets are the longest all-successful
prefix of `[0, ..., ⌊duration⌋]`, so at most `⌊duration⌋ + 1` frames are
written. -/
theorem C3_sampling_cadence (fps : ℚ) (frameCount : Nat) (reads : Nat → Bool)
    (hfps : 0 < fps) :
    extract_one_frame_per_second fps frameCount reads =
      .ok ((List.range (⌊(frameCount : ℚ) / fps⌋₊ + 1)).takeWhile reads) ∧
    ∀ offsets, extract_one_frame_per_second fps frameCount reads = .ok offsets →
      offsets.length ≤ ⌊(frameCount : ℚ) / fps⌋₊ + 1 := by
  have hD : (0 : ℚ) ≤ (frameCount : ℚ) / fps :=
    div_nonneg (by positivity) (le_of_lt hfps)
  have hmain : extract_one_frame_per_second fps frameCount reads =
      .ok ((List.range (⌊(frameCount : ℚ) / fps⌋₊ + 1)).takeWhile reads) := by
    rw [extract_one_frame_per_second, if_neg (ne_of_gt hfps),
      sampleLoop_eq hD reads (⌊(frameCount : ℚ) / fps⌋₊ + 1) 0 (by omega),
      ← List.range_eq_range']
  refine ⟨hmain, ?_⟩
  intro offsets hoff
  rw [hmain] at hoff
  have hlist := Except.ok.inj hoff
  rw [← hlist]
  calc ((List.range (⌊(frameCount : ℚ) / fps⌋₊ + 1)).takeWhile reads).length
      ≤ (List.range (⌊(frameCount : ℚ) / fps⌋₊ + 1)).length :=
        takeWhile_length_le reads _
    _ = ⌊(frameCount : ℚ) / fps⌋₊ + 1 := List.length_range _

/-- Witness for C3: a 4.7-second segment (47 frames at 10 fps) with all
reads succeeding yields exactly the 5 offsets 0, 1, 2, 3, 4. -/
theorem C3_sampling_cadence_witness :
    (0 : ℚ) < 10 ∧
    extract_one_frame_per_second 10 47 (fun _ => true) = .ok [0, 1, 2, 3, 4] := by
  refine ⟨by norm_num, ?_⟩
  rw [(C3_sampling_cadence 10 47 (fun _ => true) (by norm_num)).1,
    show ((10 : ℚ)) = ((10 : Nat) : ℚ) by norm_num, Nat.floor_div_nat,
    Nat.floor_natCast]
  exact congrArg Except.ok (by decide)

/-- C1: for a source whose duration floors to D and a segment duration L
in [5, 10], when every media operation succeeds `split_video` writes
exactly the segments `[i*L, min((i+1)*L, D))` for i in `[0, D // L]` with
`min((i+1)*L, D) > i*L`; those segments are contiguous, non-overlapping,
cover `[0, D)` exactly, have length at most L with only the final one
possibly shorter, contain no zero-length segment, and number exactly
`D / L` when D is a multiple of L. -/
theorem C1_segmentation_invariants (d : ℚ) (L : Nat) (env : SplitEnv)
    (hL1 : 5 ≤ L) (hL2 : L ≤ 10) (hd : 0 ≤ d) (hop : env.openOk = true)
    (hw : ∀ i, env.writeOk i = true) (hs : ∀ i, env.samplerRaises i = false) :
    (split_video d L env).written = emittedSegments ⌊d⌋₊ L ∧
    List.Chain' (fun p q : Nat × Nat => p.2 = q.1) (split_video d L env).written ∧
    List.Pairwise (fun p q : Nat × Nat => p.2 ≤ q.1) (split_video d L env).written ∧
    (∀ t : Nat, t < ⌊d⌋₊ ↔ ∃ p ∈ (split_video d L env).written, p.1 ≤ t ∧ t < p.2) ∧
    (∀ p ∈ (split_video d L env).written, p.1 < p.2 ∧ p.2 - p.1 ≤ L) ∧
    (∀ p ∈ (split_video d L env).written.dropLast, p.2 - p.1 = L) ∧
    (⌊d⌋₊ % L = 0 → (split_video d L env).written.length = ⌊d⌋₊ / L) := by
  have hL : 0 < L := by omega
  have hwr : (split_video d L env).written = emittedSegments ⌊d⌋₊ L := by
    rw [split_video, hop, if_pos rfl, pyInt_toNat_floor hd,
      splitSegs_allOk ⌊d⌋₊ L hw hs]
    rfl
  rw [hwr]
  exact ⟨rfl, segs_chain hL _, segs_pairwise hL _, segs_cover hL _,
    segs_len hL _, segs_dropLast_full hL _, segs_count_exact hL _⟩

/-- Witness for C1: duration 12, segment duration 5 produce exactly the
three segments [0,5), [5,10), [10,12). -/
theorem C1_segmentation_invariants_witness :
    ((0 : ℚ) ≤ 12 ∧ 5 ≤ 5 ∧ 5 ≤ 10 ∧ allOkEnv.openOk = true) ∧
    (split_video 12 5 allOkEnv).written = emittedSegments ⌊(12 : ℚ)⌋₊ 5 ∧
    (split_video 12 5 allOkEnv).written = [(0, 5), (5, 10), (10, 12)] ∧
    (split_video 12 5 allOkEnv).written.length = 3 :=
  ⟨⟨by norm_num, by norm_num, by norm_num, rfl⟩,
    (C1_segmentation_invariants 12 5 allOkEnv (by norm_num) (by norm_num)
      (by norm_num) rfl (fun _ => rfl) (fun _ => rfl)).1,
    by decide, by decide⟩

/-- C2 counterexample: a 3-second video split with L = 5 has exactly one
segment, [0,3); its write succeeds (every write in this environment
succeeds), but the per-segment frame sampler raises, so `split_video`
returns failure and the batch driver leaves the ledger untouched — the
video is NOT marked even though all segment writes succeeded,
contradicting the claim. -/
theorem C2_counterexample :
    (∀ i, (SplitEnv.mk true (fun _ => true) (fun _ => true)).writeOk i = true) ∧
    (split_video 3 5 (SplitEnv.mk true (fun _ => true) (fun _ => true))).written
      = [(0, 3)] ∧
    (split_video 3 5 (SplitEnv.mk true (fun _ => true) (fun _ => true))).sampled
      = [0] ∧
    (split_video 3 5 (SplitEnv.mk true (fun _ => true) (fun _ => true))).success
      = false ∧
    process_videos id 5
        [Video.mk (File.mk "clip.mp4".toList 10 [] 0) 3
          (SplitEnv.mk true (fun _ => true) (fun _ => true))] none =
      (none,
        [Video.mk (File.mk "clip.mp4".toList 10 [] 0) 3
          (SplitEnv.mk true (fun _ => true) (fun _ => true))]) :=
  ⟨fun _ => rfl, by decide, by decide, by decide, rfl⟩

/-- C2 amended: a failure raised during per-segment frame sampling is
caught by the same per-video handler as segmentation failures and DOES
withhold the ledger mark: `split_video` returns success exactly when the
source opened and, for every emitted segment, the segment write succeeded
and the sampler call did not raise.  Only the sampler's graceful stop — a
failed frame read, which raises nothing — leaves the mark unaffected. -/
theorem C2_sampler_raise_withholds_mark (d : ℚ) (L : Nat) (env : SplitEnv) :
    (split_video d L env).success = true ↔
      (env.openOk = true ∧
        ∀ i ∈ emittedIndices (pyInt d).toNat L,
          env.writeOk i = true ∧ env.samplerRaises i = false) := by
  rw [split_video]
  cases hop : env.openOk
  · rw [if_neg (by simp)]
    refine iff_of_false (by simp) fun h => ?_
    exact absurd h.1 (by simp)
  · rw [if_pos rfl]
    rw [splitSegs_success_iff]
    exact ⟨fun h => ⟨rfl, h⟩, fun h => h.2⟩

/-- C5: the batch driver is idempotent on an unchanged input directory:
every video whose hash was recorded by the first run is skipped by the
second run, and when every video's segmentation succeeds (so the first run
marks them all) the second run hands nothing to `split_video` — no
segmentation or sampling work, no new output, and an unchanged ledger. -/
theorem C5_idempotent (md5hex : List Char → List Char) (L : Nat)
    (videos : List Video) (store : Option (List Char)) (hg : goodStore store)
    (hnl : ∀ v ∈ videos, '\n' ∉ get_video_hash md5hex v.file) :
    (∀ v ∈ videos,
      get_video_hash md5hex v.file ∈
          ledger_lines (process_videos md5hex L videos store).1 →
        v ∉ (process_videos md5hex L videos
              (process_videos md5hex L videos store).1).2) ∧
    ((∀ v ∈ videos, (split_video v.dur L v.env).success = true) →
      process_videos md5hex L videos (process_videos md5hex L videos store).1 =
        ((process_videos md5hex L videos store).1, [])) := by
  have hg1 := goodStore_process md5hex L videos store hg
  constructor
  · intro v _ hmem
    exact marked_skipped md5hex L videos _ hg1 hnl v hmem
  · intro hsucc
    refine all_skip md5hex L videos _ fun v hv => ?_
    rw [is_already_eq]
    exact decide_eq_true (all_success_marked md5hex L videos store hg hnl hsucc v hv)

/-- Witness for C5: one 7-second video, all operations succeeding, starting
from an absent ledger file: the second run does nothing and leaves the
ledger as the first run wrote it. -/
theorem C5_idempotent_witness :
    goodStore (none : Option (List Char)) ∧
    (∀ v ∈ [Video.mk (File.mk "a.mp4".toList 4 [] 0) 7 allOkEnv],
      '\n' ∉ get_video_hash id v.file) ∧
    (∀ v ∈ [Video.mk (File.mk "a.mp4".toList 4 [] 0) 7 allOkEnv],
      (split_video v.dur 5 v.env).success = true) ∧
    process_videos id 5 [Video.mk (File.mk "a.mp4".toList 4 [] 0) 7 allOkEnv]
        (process_videos id 5
          [Video.mk (File.mk "a.mp4".toList 4 [] 0) 7 allOkEnv] none).1 =
      ((process_videos id 5
          [Video.mk (File.mk "a.mp4".toList 4 [] 0) 7 allOkEnv] none).1, []) := by
  have hnl : ∀ v ∈ [Video.mk (File.mk "a.mp4".toList 4 [] 0) 7 allOkEnv],
      '\n' ∉ get_video_hash id v.file := by
    intro v hv
    rw [List.mem_singleton] at hv
    subst hv
    decide
  have hsucc : ∀ v ∈ [Video.mk (File.mk "a.mp4".toList 4 [] 0) 7 allOkEnv],
      (split_video v.dur 5 v.env).success = true := by
    intro v hv
    rw [List.mem_singleton] at hv
    subst hv
    decide
  exact ⟨trivial, hnl, hsucc,
    (C5_idempotent id 5 _ none trivial hnl).2 hsucc⟩

/-- C7: per-video failures are isolated.  For a batch of candidate videos
with pairwise distinct hashes, none already in the ledger, every video is
handed to `split_video` — no failure aborts the loop — and a video's hash
ends up in the ledger exactly when its own `split_video` call returned
success: failed videos are not marked, later videos are still processed. -/
theorem C7_failures_isolated (md5hex : List Char → List Char) (L : Nat)
    (videos : List Video) (store : Option (List Char)) (hg : goodStore store)
    (hnl : ∀ v ∈ videos, '\n' ∉ get_video_hash md5hex v.file)
    (hpw : List.Pairwise
      (fun u w => get_video_hash md5hex u.file ≠ get_video_hash md5hex w.file) videos)
    (hfresh : ∀ v ∈ videos, get_video_hash md5hex v.file ∉ ledger_lines store) :
    (process_videos md5hex L videos store).2 = videos ∧
    ∀ v ∈ videos,
      (get_video_hash md5hex v.file ∈
          ledger_lines (process_videos md5hex L videos store).1 ↔
        (split_video v.dur L v.env).success = true) :=
  process_isolated md5hex L videos store hg hnl hpw hfresh

/-- Witness for C7: a batch with one unopenable video followed by one
valid video attempts both, fully processes the valid one and marks only
it: the final ledger holds exactly the valid video's hash. -/
theorem C7_failures_isolated_witness :
    goodStore (none : Option (List Char)) ∧
    (process_videos id 5
        [Video.mk (File.mk "bad.mp4".toList 1 [] 0) 9
            (SplitEnv.mk false (fun _ => true) (fun _ => false)),
          Video.mk (File.mk "good.mp4".toList 2 [] 0) 7 allOkEnv] none).2 =
      [Video.mk (File.mk "bad.mp4".toList 1 [] 0) 9
          (SplitEnv.mk false (fun _ => true) (fun _ => false)),
        Video.mk (File.mk "good.mp4".toList 2 [] 0) 7 allOkEnv] ∧
    (split_video 9 5 (SplitEnv.mk false (fun _ => true) (fun _ => false))).success
      = false ∧
    (split_video 7 5 allOkEnv).success = true ∧
    (process_videos id 5
        [Video.mk (File.mk "bad.mp4".toList 1 [] 0) 9
            (SplitEnv.mk false (fun _ => true) (fun _ => false)),
          Video.mk (File.mk "good.mp4".toList 2 [] 0) 7 allOkEnv] none).1 =
      some ("good.mp4-2\n".toList) := by
  have hnl : ∀ v ∈ [Video.mk (File.mk "bad.mp4".toList 1 [] 0) 9
        (SplitEnv.mk false (fun _ => true) (fun _ => false)),
      Video.mk (File.mk "good.mp4".toList 2 [] 0) 7 allOkEnv],
      '\n' ∉ get_video_hash id v.file := by
    intro v hv
    rcases List.mem_cons.mp hv with rfl | hv
    · decide
    · rw [List.mem_singleton] at hv
      subst hv
      decide
  have hpw : List.Pairwise
      (fun u w => get_video_hash id u.file ≠ get_video_hash id w.file)
      [Video.mk (File.mk "bad.mp4".toList 1 [] 0) 9
          (SplitEnv.mk false (fun _ => true) (fun _ => false)),
        Video.mk (File.mk "good.mp4".toList 2 [] 0) 7 allOkEnv] := by
    rw [List.pairwise_cons]
    refine ⟨?_, ?_⟩
    · intro w hw
      rw [List.mem_singleton] at hw
      subst hw
      decide
    · rw [List.pairwise_cons]
      exact ⟨by simp, List.Pairwise.nil⟩
  have hfresh : ∀ v ∈ [Video.mk (File.mk "bad.mp4".toList 1 [] 0) 9
        (SplitEnv.mk false (fun _ => true) (fun _ => false)),
      Video.mk (File.mk "good.mp4".toList 2 [] 0) 7 allOkEnv],
      get_video_hash id v.file ∉ ledger_lines none := by
    intro v _
    simp [ledger_lines]
  exact ⟨trivial,
    (C7_failures_isolated id 5 _ none trivial hnl hpw hfresh).1,
    by decide, by decide, by decide⟩

/-- C9: a source whose duration floors to 0 (shorter than one second) but
opens successfully makes `split_video` emit no segments, invoke the
sampler on nothing, and still return success; the batch driver therefore
marks the video as processed, and every later run skips it. -/
theorem C9_subsecond_marked (md5hex : List Char → List Char) (L : Nat)
    (v : Video) (store : Option (List Char)) (hd0 : 0 ≤ v.dur)
    (hd1 : v.dur < 1) (hop : v.env.openOk = true) (hg : goodStore store)
    (hnl : '\n' ∉ get_video_hash md5hex v.file)
    (hfresh : get_video_hash md5hex v.file ∉ ledger_lines store) :
    split_video v.dur L v.env = SplitResult.mk true [] [] ∧
    (process_videos md5hex L [v] store).1 = mark_as_processed md5hex v.file store ∧
    (process_videos md5hex L [v] store).2 = [v] ∧
    process_videos md5hex L [v] (process_videos md5hex L [v] store).1 =
      ((process_videos md5hex L [v] store).1, []) := by
  have hsplit : split_video v.dur L v.env = SplitResult.mk true [] [] := by
    rw [split_video, hop, if_pos rfl]
    have hD : (pyInt v.dur).toNat = 0 := by
      rw [pyInt_toNat_floor hd0]
      exact Nat.floor_eq_zero.mpr hd1
    rw [hD, Nat.zero_div, List.range_succ, List.range_zero, List.nil_append,
      splitSegs, if_pos (by simp : min ((0 + 1) * L) 0 ≤ 0 * L)]
    rfl
  have hp : ¬ is_already_processed md5hex v.file store = true := by
    rw [is_already_eq]
    simpa using hfresh
  have h2 : (process_videos md5hex L [v] store).1 =
      mark_as_processed md5hex v.file store := by
    rw [process_videos_cons, if_neg hp, hsplit]
    rfl
  have h3 : (process_videos md5hex L [v] store).2 = [v] := by
    rw [process_videos_cons, if_neg hp, hsplit]
    rfl
  refine ⟨hsplit, h2, h3, ?_⟩
  rw [h2]
  refine all_skip md5hex L [v] _ fun u hu => ?_
  rw [List.mem_singleton] at hu
  subst hu
  rw [is_already_eq]
  refine decide_eq_true ?_
  rw [ledger_lines_mark hg hnl]
  exact List.mem_append_right _ (List.mem_singleton_self _)

/-- Witness for C9: a half-second video is marked by the first run with no
segments written and no sampler calls, and the second run does nothing. -/
theorem C9_subsecond_marked_witness :
    ((0 : ℚ) ≤ (1 / 2 : ℚ) ∧ (1 / 2 : ℚ) < 1 ∧ allOkEnv.openOk = true ∧
      goodStore (none : Option (List Char))) ∧
    split_video (1 / 2) 5 allOkEnv = SplitResult.mk true [] [] ∧
    (process_videos id 5 [Video.mk (File.mk "tiny.mp4".toList 3 [] 0) (1 / 2) allOkEnv]
        none).1 = mark_as_processed id (File.mk "tiny.mp4".toList 3 [] 0) none ∧
    (process_videos id 5 [Video.mk (File.mk "tiny.mp4".toList 3 [] 0) (1 / 2) allOkEnv]
        none).2 = [Video.mk (File.mk "tiny.mp4".toList 3 [] 0) (1 / 2) allOkEnv] ∧
    process_videos id 5 [Video.mk (File.mk "tiny.mp4".toList 3 [] 0) (1 / 2) allOkEnv]
        (process_videos id 5
          [Video.mk (File.mk "tiny.mp4".toList 3 [] 0) (1 / 2) allOkEnv] none).1 =
      ((process_videos id 5
          [Video.mk (File.mk "tiny.mp4".toList 3 [] 0) (1 / 2) allOkEnv] none).1, []) := by
  have h := C9_subsecond_marked id 5
    (Video.mk (File.mk "tiny.mp4".toList 3 [] 0) (1 / 2) allOkEnv) none
    (by norm_num) (by norm_num) rfl trivial (by decide) (by simp [ledger_lines])
  exact ⟨⟨by norm_num, by norm_num, rfl, trivial⟩, h.1, h.2.1, h.2.2.1, h.2.2.2⟩

end FrameSplitter
